import Mathlib

/-!
Verification of the bta-lib core value algebra (`btalib/meta/lines.py`).

A time-indexed numeric sequence is modeled as a list of optional rationals:
`none` stands for the NaN sentinel used for not-yet-valid warm-up positions,
`some q` for a defined value.  A `Line` couples such a series with its
1-based `minperiod`, exactly as the Python class `Line` couples `_series`
with `_minperiod`.

Python positional slicing (`s[a:b]`, with negative-index wraparound and
clamping) is modeled explicitly by `pySlice`, since the `_ewm` seeding code
computes slice bounds that can be negative.
-/

namespace Bta

/-- A pandas Series of floats with NaN holes: `none` is NaN. -/
abbrev Series : Type := List (Option ℚ)

/-- Embedding of `Line` (lines.py): the backing `_series` plus `_minperiod`. -/
structure Line where
  series : Series
  minperiod : ℕ
deriving DecidableEq

/-- NaN-propagating binary arithmetic on optional values: pandas arithmetic
yields NaN whenever either operand is NaN. -/
def opt2 (f : ℚ → ℚ → ℚ) : Option ℚ → Option ℚ → Option ℚ
  | some x, some y => some (f x y)
  | _, _ => none

/-- Embedding of `real_binary_op` (lines.py 108-133): result minperiod is the
max of both operands' minperiods, positions before `minperiod - 1` are left
NaN, and the elementwise operation is applied from `minperiod - 1` on.  The
result is indexed like `self._series`. -/
def real_binary_op (f : ℚ → ℚ → ℚ) (a b : Line) : Line :=
  let minperiod := max a.minperiod b.minperiod
  let minidx := minperiod - 1
  ⟨(List.range a.series.length).map fun i =>
      if i < minidx then none
      else opt2 f (a.series.getD i none) (b.series.getD i none),
   minperiod⟩

/-- Embedding of `real_binary_op` when `other` is a raw scalar: it carries no
`_minperiod` attribute, so it contributes the default 1. -/
def real_binary_op_scalar (f : ℚ → ℚ → ℚ) (a : Line) (c : ℚ) : Line :=
  let minperiod := max a.minperiod 1
  let minidx := minperiod - 1
  ⟨(List.range a.series.length).map fun i =>
      if i < minidx then none
      else (a.series.getD i none).map (fun x => f x c),
   minperiod⟩

/-- Embedding of `real_standard_op` (lines.py 136-152) for an op taking a
period argument: the series transform `f` is applied and the cloned line's
minperiod is increased by `p - overlap`.  The source performs plain Python
int arithmetic; ℕ truncated subtraction agrees with it on the inputs used in
the theorems below. -/
def real_standard_op (l : Line) (f : Series → Series) (p overlap : ℕ) : Line :=
  ⟨f l.series, l.minperiod + p - overlap⟩

/-- Python positional index normalization for slice bounds: a negative index
counts from the end, and the result is clamped into `[0, n]`. -/
def pyIdx (n : ℕ) (i : ℤ) : ℕ :=
  (min (if i < 0 then (n : ℤ) + i else i) (n : ℤ)).toNat

/-- Python positional slice `s[a:b]` (step 1) with wraparound and clamping. -/
def pySlice (s : Series) (a b : ℤ) : Series :=
  (s.take (pyIdx s.length b)).drop (pyIdx s.length a)

/-- Length of the Python slice `[a:b]` over an index of length `n`. -/
def pySliceLen (n : ℕ) (a b : ℤ) : ℕ :=
  pyIdx n b - pyIdx n a

/-- Python positional element access `s[i]` with negative wraparound.  An
out-of-range access raises in Python; it is modeled as NaN, and the theorems
only use it in-range. -/
def pyGet (s : Series) (i : ℤ) : Option ℚ :=
  let j : ℤ := if i < 0 then (s.length : ℤ) + i else i
  if 0 ≤ j ∧ j < (s.length : ℤ) then s.getD j.toNat none else none

/-- pandas `Series.mean()` with the default `skipna=True`: the mean of the
non-NaN entries, NaN if there are none. -/
def nanmean (w : Series) : Option ℚ :=
  let vs := w.filterMap id
  if vs.length = 0 then none else some (vs.sum / (vs.length : ℚ))

/-- pandas `Series.sum()` with the default `skipna=True`: the sum of the
non-NaN entries (0 for an all-NaN or empty series). -/
def nansum (w : Series) : Option ℚ :=
  some ((w.filterMap id).sum)

/-- The four seed modes `SEED_AVG`, `SEED_LAST`, `SEED_SUM`, `SEED_NONE`. -/
inductive SeedMode where
  | avg
  | last
  | sum
  | none_
deriving DecidableEq

/-- Embedding of `poffset = self._poffset or self._pval` (lines.py 251):
Python `or` takes `poffset` when it is nonzero, else the period. -/
def effective_offset (pval poffset : ℕ) : ℕ :=
  if 0 < poffset then poffset else pval

/-- Embedding of the dynamic-alpha adjustment (lines.py 258-259): when the
dynamic alpha's minperiod exceeds the offset, the offset becomes
`alpha_p - 1`. -/
def adj_offset (pval poffset alpha_p : ℕ) : ℕ :=
  let po := effective_offset pval poffset
  if alpha_p > po then po + (alpha_p - po - 1) else po

/-- The seed value chosen by `_MultiFunc_Op.__init__` (lines.py 271-278):
window mean, last raw value, window sum, or nothing. -/
def seed_value (s : Series) (mode : SeedMode) (p1 p2 pidx : ℤ) : Option ℚ :=
  match mode with
  | .avg => nanmean (pySlice s p1 p2)
  | .last => pyGet s pidx
  | .sum => nansum (pySlice s p1 p2)
  | .none_ => none

/-- Embedding of the `_ewm` branch of `_MultiFunc_Op.__init__` (lines.py
239-281): computes the seed placement index `pidx = p2 - 1` and the trailer
series, which is a NaN prefix over `index[pidx:p2]` whose last slot holds the
seed value, concatenated with `series[p2:]`.  Returns `(pidx, trailer)`.
`alpha_p` is the minperiod of a dynamic alpha (1 for a constant alpha). -/
def ewmInit (s : Series) (m pval poffset pearly alpha_p : ℕ) (mode : SeedMode) :
    ℤ × Series :=
  let poff := adj_offset pval poffset alpha_p
  let p2 : ℤ := (m : ℤ) - 1 + poff - pearly
  let p1 : ℤ := p2 - pval
  let pidx : ℤ := p2 - 1
  let plen := pySliceLen s.length pidx p2
  let trailpfx :=
    (List.replicate plen (none : Option ℚ)).set (plen - 1)
      (seed_value s mode p1 p2 pidx)
  (pidx, trailpfx ++ pySlice s p2 (s.length : ℤ))

/-- Embedding of the minperiod update in `_MultiFunc_Op.__getattr__`
(lines.py 339-343) for `_ewm` ops: `minperiod += pval - overlap - pearly`
with `overlap = 1` (the `multifunc_op` default in lines.py 195), then
`minperiod = max(minperiod, alpha_p)`. -/
def ewm_minperiod (m pval pearly alpha_p : ℕ) : ℕ :=
  max (m + pval - 1 - pearly) alpha_p

/-- Embedding of `call_op`'s result placement (lines.py 346-357): a NaN
series over the full input index receives the computed values from position
`minidx` on. -/
def callOp (n : ℕ) (minidx : ℤ) (res : Series) : Series :=
  let start := pyIdx n minidx
  (List.range n).map fun i =>
    if i < start then none else res.getD (i - start) none

/-- One smoothing step of `_sm_acc`: `beta * prev + alpha * x`, with NaN
propagation. -/
def smStep (alpha beta : ℚ) (prev x : Option ℚ) : Option ℚ :=
  opt2 (fun p v => beta * p + alpha * v) prev x

/-- The tail loop of `_sm_acc` (lines.py 294-299): starting from `prev`, each
value is replaced by `beta * prev + alpha * x` and becomes the new `prev`. -/
def smAccGo (alpha beta : ℚ) (prev : Option ℚ) : Series → Series
  | [] => []
  | v :: vs =>
      let cur := smStep alpha beta prev v
      cur :: smAccGo alpha beta cur vs

/-- Embedding of `_sm_acc` (lines.py 294-299): `x[0]` is kept as the initial
`prev`; every later entry is smoothed recursively. -/
def sm_acc (alpha beta : ℚ) : Series → Series
  | [] => []
  | x0 :: xs => x0 :: smAccGo alpha beta x0 xs

/-- Embedding of the `beta` defaulting in `_mean_exp` (lines.py 291-292):
`if not beta: beta = 1.0 - alpha`.  Python treats both `None` and `0` as
falsy, so a supplied beta of 0 is replaced by `1 - alpha` too. -/
def betaEff (alpha : ℚ) (beta : Option ℚ) : ℚ :=
  match beta with
  | none => 1 - alpha
  | some b => if b = 0 then 1 - alpha else b

/-- The full constant-alpha pipeline `line._ewm(span=pval, ...)._mean_exp
(alpha, beta)`: seeding by `__init__`, smoothing by `_sm_acc`, placement and
minperiod update by `__getattr__`/`call_op`. -/
def ewm_mean_exp (l : Line) (pval poffset pearly : ℕ) (mode : SeedMode)
    (alpha : ℚ) (beta : Option ℚ) : Line :=
  let r := ewmInit l.series l.minperiod pval poffset pearly 1 mode
  ⟨callOp l.series.length r.1 (sm_acc alpha (betaEff alpha beta) r.2),
   ewm_minperiod l.minperiod pval pearly 1⟩

/-- One dynamic-alpha step of `_dynalpha` (lines.py 332):
`prev + alphai * (x - prev)`, with NaN propagation. -/
def dynStep (prev a x : Option ℚ) : Option ℚ :=
  match prev, a, x with
  | some p, some ai, some v => some (p + ai * (v - p))
  | _, _, _ => none

/-- The tail loop of `_dynalpha` (lines.py 331-332): the alphas drive the
iteration.  If the alphas run out first, the remaining values stay raw (the
Python loop simply ends); if the values run out first, Python raises an
IndexError, modeled by truncation (unused by the theorems). -/
def dynGo (prev : Option ℚ) : List (Option ℚ) → Series → Series
  | [], vs => vs
  | _ :: _, [] => []
  | a :: arest, v :: vs =>
      let cur := dynStep prev a v
      cur :: dynGo cur arest vs

/-- Embedding of `_dynalpha` (lines.py 325-334): the seed `vals[0]` is taken
as `prev` and then overwritten with NaN; the loop smooths the remaining
values in lock-step with the alphas.  An empty input would raise in Python
(`vals[0]`); the theorems only use it nonempty. -/
def dynalpha (alphas : List (Option ℚ)) : Series → Series
  | [] => []
  | v0 :: vs => none :: dynGo v0 alphas vs

/-- The full dynamic-alpha pipeline `line._ewm(span=pval, alpha=alphaL, ...)
._mean()`: the alphas are consumed from the alpha line's own first valid
position (`self._alpha_[self._alpha_p - 1:]`, lines.py 327). -/
def ewm_mean (l : Line) (pval poffset pearly : ℕ) (mode : SeedMode)
    (alphaL : Line) : Line :=
  let ap := alphaL.minperiod
  let r := ewmInit l.series l.minperiod pval poffset pearly ap mode
  let alphas := alphaL.series.drop (ap - 1)
  ⟨callOp l.series.length r.1 (dynalpha alphas r.2),
   ewm_minperiod l.minperiod pval pearly ap⟩

/-- pandas `rolling(window=p).agg(f)` with the default `min_periods = p`:
position `j` holds `f` of the last `p` values when all of them exist and are
non-NaN, else NaN. -/
def rollingWin (f : List ℚ → ℚ) (p : ℕ) (xs : Series) : Series :=
  (List.range xs.length).map fun j =>
    if j + 1 < p then none
    else
      let w := (xs.drop (j + 1 - p)).take p
      if (w.filterMap id).length = p then some (f (w.filterMap id)) else none

/-- The non-`_ewm` branch of `_MultiFunc_Op` for a rolling-window op
(lines.py 282-285 with `__getattr__`): `minidx = minperiod - 1`, the trailer
is `series[minidx:]`, the aggregation runs over it, and the minperiod grows
by `pval - overlap` with `overlap = 1` and `pearly = 0`. -/
def multifunc_rolling (f : List ℚ → ℚ) (p : ℕ) (l : Line) : Line :=
  let minidx := l.minperiod - 1
  let res := rollingWin f p (l.series.drop minidx)
  ⟨callOp l.series.length (minidx : ℤ) res, ewm_minperiod l.minperiod p 0 1⟩

/-- Embedding of `Lines._update_minperiod` (lines.py 508-510): the per-member
minperiod list plus their max.  Python `max` raises on an empty list, hence
the `Option` via `List.max?`. -/
def update_minperiod (ms : List Line) : List ℕ × Option ℕ :=
  let ps := ms.map Line.minperiod
  (ps, ps.max?)

/-- The input variants `MetaLine.__call__` (lines.py 396-430) distinguishes
that are relevant to member assignment: a raw sequence (pd.Series or other
raw value) and an existing `Line`.  (DataFrame/Lines/LinesHolder inputs are
reductions to these two and are not needed by the claims.) -/
inductive LineVal where
  | raw (s : Series)
  | line (l : Line)
deriving DecidableEq

/-- Embedding of `MetaLine.__call__`: wrapping a raw sequence yields
minperiod 1; wrapping an existing `Line` shares its backing series and keeps
its minperiod. -/
def line_call : LineVal → Line
  | .raw s => ⟨s, 1⟩
  | .line l => ⟨l.series, l.minperiod⟩

/-- Embedding of `Lines.__setattr__` / `__setitem__` (lines.py 522-523,
545-546): every assignment to a declared member stores `Line(val, name)`,
i.e. `line_call val`, at the member's position. -/
def lines_setitem (ms : List Line) (idx : ℕ) (v : LineVal) : List Line :=
  ms.set idx (line_call v)

/-! ### Helper lemmas about the embedding -/

theorem getD_map_range (f : ℕ → Option ℚ) {n i : ℕ} (hi : i < n) :
    ((List.range n).map f).getD i none = f i := by
  rw [List.getD_eq_getElem?_getD, List.getElem?_map, List.getElem?_range hi]
  rfl

theorem length_map_range (f : ℕ → Option ℚ) (n : ℕ) :
    ((List.range n).map f).length = n := by
  simp

theorem pyIdx_natCast (n k : ℕ) : pyIdx n (k : ℤ) = min k n := by
  simp only [pyIdx]
  rw [if_neg (by omega)]
  omega

theorem pyIdx_sub_one (n se : ℕ) (h1 : 1 ≤ se) :
    pyIdx n ((se : ℤ) - 1) = min (se - 1) n := by
  rw [show (se : ℤ) - 1 = ((se - 1 : ℕ) : ℤ) by omega, pyIdx_natCast]

theorem pySlice_natCast (s : Series) (a b : ℕ) (ha : a ≤ s.length)
    (hb : b ≤ s.length) :
    pySlice s (a : ℤ) (b : ℤ) = (s.drop a).take (b - a) := by
  simp only [pySlice, pyIdx_natCast]
  rw [Nat.min_eq_left hb, Nat.min_eq_left ha, List.drop_take]

theorem pySlice_to_len (s : Series) (a : ℕ) (ha : a ≤ s.length) :
    pySlice s (a : ℤ) (s.length : ℤ) = s.drop a := by
  rw [pySlice_natCast s a s.length ha le_rfl]
  exact List.take_of_length_le (by simp)

theorem callOp_length (n : ℕ) (minidx : ℤ) (res : Series) :
    (callOp n minidx res).length = n := by
  simp [callOp]

theorem pyIdx_eq_toNat (n : ℕ) (i : ℤ) (h0 : 0 ≤ i) (hn : i ≤ (n : ℤ)) :
    pyIdx n i = i.toNat := by
  simp only [pyIdx]
  rw [if_neg (by omega)]
  omega

theorem callOp_getD (n : ℕ) (minidx : ℤ) (res : Series) (i : ℕ) (hi : i < n)
    (h0 : 0 ≤ minidx) (hn : minidx ≤ (n : ℤ)) :
    (callOp n minidx res).getD i none =
      if i < minidx.toNat then none else res.getD (i - minidx.toNat) none := by
  simp only [callOp]
  rw [pyIdx_eq_toNat n minidx h0 hn, getD_map_range _ hi]

theorem getD_len_le {s : Series} {i : ℕ} (h : s.length ≤ i) :
    s.getD i none = none :=
  List.getD_eq_default _ _ h

theorem length_filterMap_id {w : Series} (h : ∀ x ∈ w, x.isSome) :
    (w.filterMap id).length = w.length := by
  induction w with
  | nil => rfl
  | cons x xs ih =>
      cases x with
      | none => exact absurd (h none (by simp)) (by simp)
      | some v =>
          simp only [List.filterMap_cons, id, List.length_cons]
          rw [ih (fun y hy => h y (by simp [hy]))]

/-- Structural happy-path computation of `ewmInit`: with `se` denoting the
seed end (`minperiod - 1 + offset - early`, required nonnegative via the
hypothesis equation), the trailer is exactly the seed value followed by the
raw series from `se` on, and the placement index is `se - 1`. -/
theorem ewmInit_eq (s : Series) (m pval poffset pearly ap se : ℕ)
    (mode : SeedMode)
    (hse : m + adj_offset pval poffset ap = se + 1 + pearly)
    (h1 : 1 ≤ se) (hn : se ≤ s.length) :
    ewmInit s m pval poffset pearly ap mode =
      ((se : ℤ) - 1,
        seed_value s mode ((se : ℤ) - pval) (se : ℤ) ((se : ℤ) - 1)
          :: s.drop se) := by
  have hp2 : (m : ℤ) - 1 + (adj_offset pval poffset ap : ℤ) - (pearly : ℤ)
      = (se : ℤ) := by omega
  simp only [ewmInit, hp2]
  have hlen : pySliceLen s.length ((se : ℤ) - 1) (se : ℤ) = 1 := by
    simp only [pySliceLen, pyIdx_natCast, pyIdx_sub_one s.length se h1]
    omega
  rw [hlen]
  simp only [List.replicate, List.set_cons_zero]
  rw [pySlice_to_len s se hn]
  rfl

theorem seed_window_eq (s : Series) (se pval : ℕ) (hp : pval ≤ se)
    (hn : se ≤ s.length) :
    pySlice s ((se : ℤ) - pval) (se : ℤ) = (s.drop (se - pval)).take pval := by
  rw [show (se : ℤ) - pval = ((se - pval : ℕ) : ℤ) by omega,
    pySlice_natCast s (se - pval) se (by omega) hn]
  congr 1
  omega

theorem seed_value_avg (s : Series) (se pval : ℕ) (hp1 : 1 ≤ pval)
    (hp : pval ≤ se) (hn : se ≤ s.length)
    (hW : ∀ x ∈ (s.drop (se - pval)).take pval, x.isSome) :
    seed_value s .avg ((se : ℤ) - pval) (se : ℤ) ((se : ℤ) - 1) =
      some (((((s.drop (se - pval)).take pval).filterMap id).sum) / (pval : ℚ)) := by
  simp only [seed_value, nanmean, seed_window_eq s se pval hp hn]
  have hlen : (((s.drop (se - pval)).take pval).filterMap id).length = pval := by
    rw [length_filterMap_id hW, List.length_take, List.length_drop]
    omega
  rw [hlen, if_neg (by omega)]

theorem seed_value_sum (s : Series) (se pval : ℕ) (hp : pval ≤ se)
    (hn : se ≤ s.length) :
    seed_value s .sum ((se : ℤ) - pval) (se : ℤ) ((se : ℤ) - 1) =
      some ((((s.drop (se - pval)).take pval).filterMap id).sum) := by
  simp only [seed_value, nansum, seed_window_eq s se pval hp hn]

theorem seed_value_last (s : Series) (se pval : ℕ) (h1 : 1 ≤ se)
    (hn : se ≤ s.length) :
    seed_value s .last ((se : ℤ) - pval) (se : ℤ) ((se : ℤ) - 1) =
      s.getD (se - 1) none := by
  simp only [seed_value, pyGet]
  rw [if_neg (show ¬((se : ℤ) - 1 < 0) by omega),
    if_pos (show (0 : ℤ) ≤ (se : ℤ) - 1 ∧ (se : ℤ) - 1 < (s.length : ℤ) from
      ⟨by omega, by omega⟩)]
  congr 1
  omega

theorem smAccGo_length (alpha beta : ℚ) :
    ∀ (vs : Series) (prev : Option ℚ),
      (smAccGo alpha beta prev vs).length = vs.length := by
  intro vs
  induction vs with
  | nil => intro prev; rfl
  | cons v vs ih => intro prev; simp [smAccGo, ih]

theorem sm_acc_length (alpha beta : ℚ) (xs : Series) :
    (sm_acc alpha beta xs).length = xs.length := by
  cases xs with
  | nil => rfl
  | cons x xs => simp [sm_acc, smAccGo_length]

theorem smAccGo_chain (alpha beta : ℚ) :
    ∀ (vs : Series) (prev : Option ℚ) (k : ℕ), k + 1 < vs.length →
      (smAccGo alpha beta prev vs).getD (k + 1) none =
        smStep alpha beta ((smAccGo alpha beta prev vs).getD k none)
          (vs.getD (k + 1) none) := by
  intro vs
  induction vs with
  | nil => intro prev k hk; simp at hk
  | cons v vs ih =>
      intro prev k hk
      cases k with
      | zero =>
          cases vs with
          | nil => simp at hk
          | cons v2 vs2 => rfl
      | succ k =>
          simp only [smAccGo, List.getD_cons_succ]
          exact ih _ k (by simpa using hk)

theorem sm_acc_chain (alpha beta : ℚ) (xs : Series) (k : ℕ)
    (hk : k + 1 < xs.length) :
    (sm_acc alpha beta xs).getD (k + 1) none =
      smStep alpha beta ((sm_acc alpha beta xs).getD k none)
        (xs.getD (k + 1) none) := by
  cases xs with
  | nil => simp at hk
  | cons x0 xs =>
      cases k with
      | zero =>
          cases xs with
          | nil => simp at hk
          | cons v vs => rfl
      | succ k =>
          simp only [sm_acc, List.getD_cons_succ]
          exact smAccGo_chain alpha beta xs x0 k (by simpa using hk)

theorem dynGo_length :
    ∀ (alphas : List (Option ℚ)) (vs : Series) (prev : Option ℚ),
      alphas.length ≤ vs.length → (dynGo prev alphas vs).length = vs.length := by
  intro alphas
  induction alphas with
  | nil => intro vs prev _; rfl
  | cons a arest ih =>
      intro vs prev hlen
      cases vs with
      | nil => simp at hlen
      | cons v vs => simp only [dynGo, List.length_cons]; rw [ih vs _ (by simpa using hlen)]

theorem dynGo_chain :
    ∀ (alphas : List (Option ℚ)) (vs : Series) (prev : Option ℚ) (k : ℕ),
      k + 1 < vs.length → k + 1 < alphas.length →
      (dynGo prev alphas vs).getD (k + 1) none =
        dynStep ((dynGo prev alphas vs).getD k none)
          (alphas.getD (k + 1) none) (vs.getD (k + 1) none) := by
  intro alphas
  induction alphas with
  | nil => intro vs prev k _ ha; simp at ha
  | cons a arest ih =>
      intro vs prev k hv ha
      cases vs with
      | nil => simp at hv
      | cons v vs =>
          cases k with
          | zero =>
              cases vs with
              | nil => simp at hv
              | cons v2 vs2 =>
                  cases arest with
                  | nil => simp at ha
                  | cons a2 arest2 => rfl
          | succ k =>
              simp only [dynGo, List.getD_cons_succ]
              exact ih vs _ k (by simpa using hv) (by simpa using ha)

theorem dynGo_replicate (α : ℚ) :
    ∀ (vs : Series) (prev : Option ℚ),
      dynGo prev (List.replicate vs.length (some α)) vs =
        smAccGo α (1 - α) prev vs := by
  intro vs
  induction vs with
  | nil => intro prev; rfl
  | cons v vs ih =>
      intro prev
      simp only [List.length_cons, List.replicate, dynGo, smAccGo]
      have hstep : dynStep prev (some α) v = smStep α (1 - α) prev v := by
        cases prev with
        | none => rfl
        | some p =>
            cases v with
            | none => rfl
            | some x =>
                simp only [dynStep, smStep, opt2, Option.some.injEq]
                ring
      rw [hstep, ih]

theorem foldl_max_le_init : ∀ (l : List ℕ) (a : ℕ), a ≤ l.foldl max a := by
  intro l
  induction l with
  | nil => intro a; exact le_rfl
  | cons x xs ih =>
      intro a
      exact le_trans (Nat.le_max_left a x) (ih (max a x))

theorem foldl_max_mem : ∀ (l : List ℕ) (a x : ℕ), x ∈ l → x ≤ l.foldl max a := by
  intro l
  induction l with
  | nil => intro a x hx; simp at hx
  | cons y ys ih =>
      intro a x hx
      rcases List.mem_cons.mp hx with h | h
      · subst h
        exact le_trans (Nat.le_max_right a x) (foldl_max_le_init ys (max a x))
      · exact ih (max a y) x h

theorem max?_eq_foldl (l : List ℕ) (h : l ≠ []) :
    l.max? = some (l.foldl max 0) := by
  cases l with
  | nil => exact absurd rfl h
  | cons a as =>
      show some (as.foldl max a) = some ((a :: as).foldl max 0)
      simp [List.foldl_cons, Nat.zero_max]

theorem callOp_getD_lt_start (n : ℕ) (minidx : ℤ) (res : Series) (i : ℕ)
    (hi : i < n) (h0 : 0 ≤ minidx) (hlt : (i : ℤ) < minidx) :
    (callOp n minidx res).getD i none = none := by
  have hpy : pyIdx n minidx = min minidx.toNat n := by
    simp only [pyIdx]
    rw [if_neg (by omega)]
    omega
  simp only [callOp]
  rw [hpy, getD_map_range _ hi, if_pos (by omega)]

theorem getD_drop (s : Series) (a j : ℕ) :
    (s.drop a).getD j none = s.getD (a + j) none := by
  rw [List.getD_eq_getElem?_getD, List.getD_eq_getElem?_getD,
    List.getElem?_drop]

theorem getD_replicate_lt (k j : ℕ) (x : Option ℚ) (h : j < k) :
    (List.replicate k x).getD j none = x := by
  rw [List.getD_eq_getElem _ _ (by simpa using h)]
  exact List.getElem_replicate ..

theorem filterMap_id_replicate (k : ℕ) (c : ℚ) :
    (List.replicate k (some c)).filterMap id = List.replicate k c := by
  induction k with
  | zero => rfl
  | succ k ih => simp [List.replicate, ih]

theorem smAccGo_const (alpha c : ℚ) :
    ∀ k, smAccGo alpha (1 - alpha) (some c) (List.replicate k (some c)) =
      List.replicate k (some c) := by
  intro k
  induction k with
  | zero => rfl
  | succ k ih =>
      have hstep : smStep alpha (1 - alpha) (some c) (some c) = some c := by
        simp only [smStep, opt2, Option.some.injEq]
        ring
      simp only [List.replicate, smAccGo, hstep, ih]

theorem dynGo_getD_zero (prev : Option ℚ) (alphas vs : Series)
    (ha : 0 < alphas.length) (hv : 0 < vs.length) :
    (dynGo prev alphas vs).getD 0 none =
      dynStep prev (alphas.getD 0 none) (vs.getD 0 none) := by
  cases alphas with
  | nil => simp at ha
  | cons a arest =>
      cases vs with
      | nil => simp at hv
      | cons v vs => rfl

theorem adj_offset_one (pval poffset : ℕ) (hp : 1 ≤ pval) :
    adj_offset pval poffset 1 = effective_offset pval poffset := by
  have hpo : 1 ≤ effective_offset pval poffset := by
    simp only [effective_offset]
    split <;> omega
  simp only [adj_offset]
  rw [if_neg (by omega)]

/-- The constant-alpha smoothing result obeys the recursion
`out[i] = smStep out[i-1] raw[i]` at every index past the seed position. -/
theorem ewm_mean_exp_rec (l : Line) (pval poffset pearly se : ℕ)
    (mode : SeedMode) (alpha : ℚ) (beta : Option ℚ)
    (hse : l.minperiod + adj_offset pval poffset 1 = se + 1 + pearly)
    (h1 : 1 ≤ se) (hn : se ≤ l.series.length) (i : ℕ) (hi : se ≤ i)
    (hin : i < l.series.length) :
    (ewm_mean_exp l pval poffset pearly mode alpha beta).series.getD i none =
      smStep alpha (betaEff alpha beta)
        ((ewm_mean_exp l pval poffset pearly mode alpha beta).series.getD
          (i - 1) none)
        (l.series.getD i none) := by
  have hr := ewmInit_eq l.series l.minperiod pval poffset pearly 1 se mode hse
    h1 hn
  have hser : (ewm_mean_exp l pval poffset pearly mode alpha beta).series =
      callOp l.series.length ((se : ℤ) - 1)
        (sm_acc alpha (betaEff alpha beta)
          (seed_value l.series mode ((se : ℤ) - pval) (se : ℤ) ((se : ℤ) - 1)
            :: l.series.drop se)) := by
    show callOp l.series.length
        (ewmInit l.series l.minperiod pval poffset pearly 1 mode).1
        (sm_acc alpha (betaEff alpha beta)
          (ewmInit l.series l.minperiod pval poffset pearly 1 mode).2) = _
    rw [hr]
  have ht : ((se : ℤ) - 1).toNat = se - 1 := by omega
  rw [hser, callOp_getD _ _ _ i hin (by omega) (by omega),
    callOp_getD _ _ _ (i - 1) (by omega) (by omega) (by omega), ht,
    if_neg (by omega), if_neg (by omega)]
  rw [show i - (se - 1) = (i - se) + 1 from by omega,
    sm_acc_chain alpha (betaEff alpha beta) _ (i - se)
      (by simp only [List.length_cons, List.length_drop]; omega)]
  rw [show (i - 1) - (se - 1) = i - se from by omega]
  rw [List.getD_cons_succ, getD_drop, show se + (i - se) = i from by omega]

/-- The dynamic-alpha smoothing result: the first recursion step at the seed
end consumes the (erased) seed as `prev` together with the alpha at the
alpha line's first valid position, and every later step chains the previous
output with the alphas in lock-step with the raw input. -/
theorem ewm_mean_rec (l : Line) (pval poffset pearly sed : ℕ)
    (mode : SeedMode) (alphaL : Line)
    (hse : l.minperiod + adj_offset pval poffset alphaL.minperiod =
      sed + 1 + pearly)
    (h1 : 1 ≤ sed) (hn : sed ≤ l.series.length) :
    (sed < l.series.length →
      0 < (alphaL.series.drop (alphaL.minperiod - 1)).length →
      (ewm_mean l pval poffset pearly mode alphaL).series.getD sed none =
        dynStep
          (seed_value l.series mode ((sed : ℤ) - pval) (sed : ℤ)
            ((sed : ℤ) - 1))
          ((alphaL.series.drop (alphaL.minperiod - 1)).getD 0 none)
          (l.series.getD sed none))
    ∧ ∀ i, sed < i → i < l.series.length →
        i - sed < (alphaL.series.drop (alphaL.minperiod - 1)).length →
        (ewm_mean l pval poffset pearly mode alphaL).series.getD i none =
          dynStep
            ((ewm_mean l pval poffset pearly mode alphaL).series.getD (i - 1)
              none)
            ((alphaL.series.drop (alphaL.minperiod - 1)).getD (i - sed) none)
            (l.series.getD i none) := by
  have hr := ewmInit_eq l.series l.minperiod pval poffset pearly
    alphaL.minperiod sed mode hse h1 hn
  have hser : (ewm_mean l pval poffset pearly mode alphaL).series =
      callOp l.series.length ((sed : ℤ) - 1)
        (none :: dynGo
          (seed_value l.series mode ((sed : ℤ) - pval) (sed : ℤ)
            ((sed : ℤ) - 1))
          (alphaL.series.drop (alphaL.minperiod - 1))
          (l.series.drop sed)) := by
    show callOp l.series.length
        (ewmInit l.series l.minperiod pval poffset pearly alphaL.minperiod
          mode).1
        (dynalpha (alphaL.series.drop (alphaL.minperiod - 1))
          (ewmInit l.series l.minperiod pval poffset pearly alphaL.minperiod
            mode).2) = _
    rw [hr]
    rfl
  have ht : ((sed : ℤ) - 1).toNat = sed - 1 := by omega
  constructor
  · intro hsn ha
    rw [hser, callOp_getD _ _ _ sed hsn (by omega) (by omega), ht,
      if_neg (by omega), show sed - (sed - 1) = 1 from by omega,
      List.getD_cons_succ,
      dynGo_getD_zero _ _ _ ha (by simp only [List.length_drop]; omega)]
    simp only [getD_drop, Nat.add_zero]
  · intro i hi hin hia
    rw [hser, callOp_getD _ _ _ i hin (by omega) (by omega),
      callOp_getD _ _ _ (i - 1) (by omega) (by omega) (by omega), ht,
      if_neg (by omega), if_neg (by omega)]
    rw [show i - (sed - 1) = ((i - sed - 1) + 1) + 1 from by omega,
      List.getD_cons_succ,
      dynGo_chain _ _ _ (i - sed - 1)
        (by simp only [List.length_drop]; omega) (by omega)]
    rw [show (i - 1) - (sed - 1) = (i - sed - 1) + 1 from by omega,
      List.getD_cons_succ]
    rw [show (i - sed - 1) + 1 = i - sed from by omega]
    simp only [getD_drop]
    rw [show sed + (i - sed) = i from by omega]

/-! ### Claim theorems -/

/-- C4: an elementwise binary operation on two lines (or a line and a raw
scalar) has minperiod `max(minperiod a, minperiod b)` (a scalar contributing
1), computes `a[i] op b[i]` from position `minperiod - 1` on, and leaves all
earlier positions undefined. -/
theorem binary_op_minperiod_values (f : ℚ → ℚ → ℚ) (a b : Line) (c : ℚ) :
    (real_binary_op f a b).minperiod = max a.minperiod b.minperiod
    ∧ (∀ i, i < a.series.length → max a.minperiod b.minperiod - 1 ≤ i →
        (real_binary_op f a b).series.getD i none =
          opt2 f (a.series.getD i none) (b.series.getD i none))
    ∧ (∀ i, i < max a.minperiod b.minperiod - 1 →
        (real_binary_op f a b).series.getD i none = none)
    ∧ (real_binary_op_scalar f a c).minperiod = max a.minperiod 1
    ∧ (∀ i, i < a.series.length → max a.minperiod 1 - 1 ≤ i →
        (real_binary_op_scalar f a c).series.getD i none =
          (a.series.getD i none).map (fun x => f x c))
    ∧ (∀ i, i < max a.minperiod 1 - 1 →
        (real_binary_op_scalar f a c).series.getD i none = none) := by
  refine ⟨rfl, ?_, ?_, rfl, ?_, ?_⟩
  · intro i hi hmi
    simp only [real_binary_op]
    rw [getD_map_range _ hi, if_neg (by omega)]
  · intro i hi
    rcases lt_or_ge i a.series.length with hin | hin
    · simp only [real_binary_op]
      rw [getD_map_range _ hin, if_pos (by omega)]
    · exact getD_len_le (by simpa [real_binary_op] using hin)
  · intro i hi hmi
    simp only [real_binary_op_scalar]
    rw [getD_map_range _ hi, if_neg (by omega)]
  · intro i hi
    rcases lt_or_ge i a.series.length with hin | hin
    · simp only [real_binary_op_scalar]
      rw [getD_map_range _ hin, if_pos (by omega)]
    · exact getD_len_le (by simpa [real_binary_op_scalar] using hin)

/-- C4 witness at a concrete input: adding `[1,2,3]` (minperiod 2) and
`[10,20,30]` (minperiod 1). -/
theorem binary_op_minperiod_values_w :
    (real_binary_op (fun x y => x + y) ⟨[some 1, some 2, some 3], 2⟩
        ⟨[some 10, some 20, some 30], 1⟩).minperiod = max 2 1
    ∧ (∀ i, i < ([some 1, some 2, some 3] : Series).length → max 2 1 - 1 ≤ i →
        (real_binary_op (fun x y => x + y) ⟨[some 1, some 2, some 3], 2⟩
          ⟨[some 10, some 20, some 30], 1⟩).series.getD i none =
          opt2 (fun x y => x + y) (([some 1, some 2, some 3] : Series).getD i none)
            (([some 10, some 20, some 30] : Series).getD i none))
    ∧ (∀ i, i < max 2 1 - 1 →
        (real_binary_op (fun x y => x + y) ⟨[some 1, some 2, some 3], 2⟩
          ⟨[some 10, some 20, some 30], 1⟩).series.getD i none = none)
    ∧ (real_binary_op_scalar (fun x y => x + y) ⟨[some 1, some 2, some 3], 2⟩
        5).minperiod = max 2 1
    ∧ (∀ i, i < ([some 1, some 2, some 3] : Series).length → max 2 1 - 1 ≤ i →
        (real_binary_op_scalar (fun x y => x + y) ⟨[some 1, some 2, some 3], 2⟩
          5).series.getD i none =
          (([some 1, some 2, some 3] : Series).getD i none).map (fun x => x + 5))
    ∧ (∀ i, i < max 2 1 - 1 →
        (real_binary_op_scalar (fun x y => x + y) ⟨[some 1, some 2, some 3], 2⟩
          5).series.getD i none = none) :=
  binary_op_minperiod_values (fun x y => x + y) ⟨[some 1, some 2, some 3], 2⟩
    ⟨[some 10, some 20, some 30], 1⟩ 5

/-- C5: a rolling-window op of period `p` over an input of minperiod `m`
yields minperiod `m + p - 1`, and every output position before index
`m + p - 2` is undefined. -/
theorem rolling_minperiod_undefined (f : List ℚ → ℚ) (p : ℕ) (l : Line)
    (hp : 1 ≤ p) (hm : 1 ≤ l.minperiod) :
    (multifunc_rolling f p l).minperiod = l.minperiod + p - 1
    ∧ ∀ i, i < l.minperiod + p - 2 →
        (multifunc_rolling f p l).series.getD i none = none := by
  constructor
  · simp only [multifunc_rolling, ewm_minperiod]
    omega
  · intro i hi
    rcases lt_or_ge i l.series.length with hin | hin
    · simp only [multifunc_rolling]
      rcases lt_or_ge i (l.minperiod - 1) with hlt | hge
      · exact callOp_getD_lt_start _ _ _ i hin (by omega) (by omega)
      · rw [callOp_getD _ _ _ i hin (by omega) (by omega)]
        rw [if_neg (by omega)]
        rcases lt_or_ge (i - (((l.minperiod - 1 : ℕ) : ℤ)).toNat)
            (l.series.drop (l.minperiod - 1)).length with hj | hj
        · simp only [rollingWin]
          rw [getD_map_range _ hj, if_pos (by omega)]
        · exact getD_len_le (by simpa [rollingWin] using hj)
    · refine getD_len_le ?_
      simp only [multifunc_rolling]
      rw [callOp_length]
      omega

/-- C5 witness at a concrete input: a rolling sum of period 2 over a line of
minperiod 2. -/
theorem rolling_minperiod_undefined_w :
    (1 ≤ 2 ∧ 1 ≤ (⟨[some 1, some 2, some 3], 2⟩ : Line).minperiod)
    ∧ ((multifunc_rolling (fun xs => xs.sum) 2
          ⟨[some 1, some 2, some 3], 2⟩).minperiod =
        (⟨[some 1, some 2, some 3], 2⟩ : Line).minperiod + 2 - 1
      ∧ ∀ i, i < (⟨[some 1, some 2, some 3], 2⟩ : Line).minperiod + 2 - 2 →
          (multifunc_rolling (fun xs => xs.sum) 2
            ⟨[some 1, some 2, some 3], 2⟩).series.getD i none = none) :=
  ⟨⟨by decide, by decide⟩,
   rolling_minperiod_undefined (fun xs => xs.sum) 2
     ⟨[some 1, some 2, some 3], 2⟩ (by decide) (by decide)⟩

/-- C7 counterexample: the code raises no `ConfigurationError` (none exists
in the sources).  A standard op invoked with period 0 returns a result line,
and an `_ewm` invocation whose `seed_start = p2 - period` is negative
(`minperiod 1`, `period 4`, `poffset 2`, hence `p2 = 2`, `p1 = -2`) silently
takes the empty Python slice `s[-2:2]` as seed window and returns a seeded
trailer with a NaN seed — a result is produced in both cases, refuting the
claim that no result value is produced. -/
theorem no_validation_cex :
    real_standard_op ⟨[some 1], 1⟩ id 0 0 = ⟨[some 1], 1⟩
    ∧ ewmInit [some 1, some 2, some 3, some 4, some 5] 1 4 2 0 1 .avg =
        (1, [none, some 3, some 4, some 5]) := by
  exact ⟨rfl, by decide⟩

/-- C7 (amended): the code performs no validation.  A standard op with
period 0 simply returns the transformed series with minperiod decreased by
`overlap`, and an `_ewm` invocation with negative `seed_start` (here
`p1 = -2`) takes the empty wrapped slice as seed window, producing a NaN
seed and a normal result — no error of any kind is raised by this code. -/
theorem no_validation_behavior :
    (∀ (l : Line) (f : Series → Series) (overlap : ℕ),
        real_standard_op l f 0 overlap = ⟨f l.series, l.minperiod - overlap⟩)
    ∧ (∀ s : Series, 4 ≤ s.length →
        ewmInit s 1 4 2 0 1 .avg = (1, none :: s.drop 2)) := by
  constructor
  · intro l f overlap
    simp [real_standard_op]
  · intro s hs
    have h3 : pySlice s (-2) 2 = [] := by
      have h1 : pyIdx s.length (-2) = s.length - 2 := by
        simp only [pyIdx]
        rw [if_pos (by norm_num)]
        omega
      have h2 : pyIdx s.length 2 = 2 := by
        rw [show (2 : ℤ) = ((2 : ℕ) : ℤ) by norm_num, pyIdx_natCast]
        omega
      rw [pySlice, h1, h2]
      rw [← List.length_eq_zero]
      simp only [List.length_drop, List.length_take]
      omega
    have hr := ewmInit_eq s 1 4 2 0 1 2 .avg (by decide) (by norm_num)
      (by omega)
    rw [hr]
    have hsv : seed_value s .avg (((2 : ℕ) : ℤ) - ((4 : ℕ) : ℤ)) ((2 : ℕ) : ℤ)
        (((2 : ℕ) : ℤ) - 1) = none := by
      simp only [seed_value]
      rw [show ((2 : ℕ) : ℤ) - ((4 : ℕ) : ℤ) = (-2 : ℤ) by norm_num,
        show ((2 : ℕ) : ℤ) = (2 : ℤ) by norm_num, h3]
      rfl
    rw [hsv]
    norm_num

/-- C7 witness for the amended behavior at a concrete input. -/
theorem no_validation_behavior_w :
    4 ≤ ([some 1, some 2, some 3, some 4, some 5] : Series).length
    ∧ ewmInit [some 1, some 2, some 3, some 4, some 5] 1 4 2 0 1 .avg =
        (1, none :: ([some 1, some 2, some 3, some 4, some 5] : Series).drop 2) :=
  ⟨by decide,
   no_validation_behavior.2 [some 1, some 2, some 3, some 4, some 5] (by decide)⟩

/-- C9: the recomputed bundle-level minperiod is the max over all member
minperiods (every member's minperiod is below it and it is attained). -/
theorem lines_minperiod_max (ms : List Line) (h : ms ≠ []) :
    (update_minperiod ms).2 = some ((ms.map Line.minperiod).foldl max 0)
    ∧ ∀ l ∈ ms, l.minperiod ≤ (ms.map Line.minperiod).foldl max 0 := by
  constructor
  · simp only [update_minperiod]
    exact max?_eq_foldl _ (by simpa using h)
  · intro l hl
    exact foldl_max_mem _ 0 _ (List.mem_map_of_mem _ hl)

/-- C9 witness: a bundle with member minperiods `[5, 3, 8]` reports
aggregated minperiod 8. -/
theorem lines_minperiod_max_w :
    (([⟨[], 5⟩, ⟨[], 3⟩, ⟨[], 8⟩] : List Line) ≠ [])
    ∧ ((update_minperiod [⟨[], 5⟩, ⟨[], 3⟩, ⟨[], 8⟩]).2 =
        some ((([⟨[], 5⟩, ⟨[], 3⟩, ⟨[], 8⟩] : List Line).map
          Line.minperiod).foldl max 0)
      ∧ ∀ l ∈ ([⟨[], 5⟩, ⟨[], 3⟩, ⟨[], 8⟩] : List Line),
          l.minperiod ≤ (([⟨[], 5⟩, ⟨[], 3⟩, ⟨[], 8⟩] : List Line).map
            Line.minperiod).foldl max 0)
    ∧ (update_minperiod [⟨[], 5⟩, ⟨[], 3⟩, ⟨[], 8⟩]).2 = some 8 :=
  ⟨by decide, lines_minperiod_max _ (by decide), by decide⟩

/-- C10: assigning a value to a declared member position stores exactly
`Line(val)`: a raw sequence becomes a `Line` with minperiod 1, an existing
`Line` is rewrapped sharing its backing series with its minperiod
preserved.  (Members are `Line`-typed by construction in the embedding,
mirroring that `Lines.__setattr__` always stores a `Line`.) -/
theorem lines_member_is_line (ms : List Line) (idx : ℕ) (v : LineVal)
    (h : idx < ms.length) :
    (lines_setitem ms idx v)[idx]? = some (line_call v)
    ∧ (∀ sq : Series, line_call (.raw sq) = ⟨sq, 1⟩)
    ∧ (∀ l0 : Line, line_call (.line l0) = ⟨l0.series, l0.minperiod⟩) := by
  refine ⟨?_, fun _ => rfl, fun _ => rfl⟩
  simp [lines_setitem, List.getElem?_set, h]

/-- C1: an `_ewm` invocation with constant alpha, minperiod `m`, period
`pval`, seed offset `poffset` and early offset `pearly` seeds from the
half-open raw-input window `[se - pval, se)` with
`se = m - 1 + effective_offset - pearly` and
`effective_offset = poffset if poffset > 0 else pval`, planting exactly one
seed at index `se - 1`: the window's arithmetic mean (mean mode), the raw
value at that index (last mode), the window's sum (sum mode), or nothing
(no-seed mode).  The hypotheses state that the configuration is valid:
`se ≥ 1`, `se ≤ len`, `seed_start = se - pval ≥ 0`, and the window holds
defined values. -/
theorem ewm_seed_window_placement (s : Series) (m pval poffset pearly se : ℕ)
    (mode : SeedMode)
    (hse : m + effective_offset pval poffset = se + 1 + pearly)
    (hp : 1 ≤ pval) (h1 : 1 ≤ se) (hn : se ≤ s.length) (hps : pval ≤ se)
    (hW : ∀ x ∈ (s.drop (se - pval)).take pval, x.isSome) :
    ewmInit s m pval poffset pearly 1 mode =
      ((se : ℤ) - 1,
        (match mode with
         | .avg => some (((((s.drop (se - pval)).take pval).filterMap id).sum)
            / (pval : ℚ))
         | .last => s.getD (se - 1) none
         | .sum => some ((((s.drop (se - pval)).take pval).filterMap id).sum)
         | .none_ => none) :: s.drop se) := by
  have hadj : m + adj_offset pval poffset 1 = se + 1 + pearly := by
    rw [adj_offset_one pval poffset hp]
    exact hse
  rw [ewmInit_eq s m pval poffset pearly 1 se mode hadj h1 hn]
  have hsv : seed_value s mode ((se : ℤ) - pval) (se : ℤ) ((se : ℤ) - 1) =
      (match mode with
       | .avg => some (((((s.drop (se - pval)).take pval).filterMap id).sum)
          / (pval : ℚ))
       | .last => s.getD (se - 1) none
       | .sum => some ((((s.drop (se - pval)).take pval).filterMap id).sum)
       | .none_ => none) := by
    cases mode with
    | avg => exact seed_value_avg s se pval hp hps hn hW
    | last => exact seed_value_last s se pval h1 hn
    | sum => exact seed_value_sum s se pval hps hn
    | none_ => rfl
  rw [hsv]

/-- C1 witness: period 3, mean seed over `[1..5]` with minperiod 1: the seed
window is `[0, 3)`, the seed `mean [1,2,3] = 2` is planted at index 2. -/
theorem ewm_seed_window_placement_w :
    ((1 : ℕ) + effective_offset 3 0 = 3 + 1 + 0 ∧ (1 : ℕ) ≤ 3 ∧ (1 : ℕ) ≤ 3
      ∧ (3 : ℕ) ≤ ([some 1, some 2, some 3, some 4, some 5] : Series).length
      ∧ (3 : ℕ) ≤ 3
      ∧ ∀ x ∈ (([some 1, some 2, some 3, some 4, some 5] : Series).drop
          (3 - 3)).take 3, x.isSome)
    ∧ ewmInit [some 1, some 2, some 3, some 4, some 5] 1 3 0 0 1 .avg =
        ((3 : ℤ) - 1,
          some ((((([some 1, some 2, some 3, some 4, some 5] : Series).drop
            (3 - 3)).take 3).filterMap id).sum / ((3 : ℕ) : ℚ))
          :: ([some 1, some 2, some 3, some 4, some 5] : Series).drop 3) :=
  ⟨⟨by decide, by decide, by decide, by decide, by decide, by decide⟩,
   ewm_seed_window_placement [some 1, some 2, some 3, some 4, some 5]
     1 3 0 0 3 .avg (by decide) (by decide) (by decide) (by decide)
     (by decide) (by decide)⟩

/-- C2 counterexample: an `_ewm` with minperiod 1, period 12, `poffset = 26`
(the macd fast-ema situation) has `seed_end = 1 - 1 + 26 - 0 = 26`, but the
result's minperiod is 12, not 26 — `__getattr__` adds `pval - overlap`
regardless of `poffset`.  Position 11 (= minperiod - 1, claimed to be the
first valid one) is in fact still undefined, and the first defined position
is 25 (= seed_end - 1). -/
theorem ewm_minperiod_poffset_cex :
    (ewm_mean_exp ⟨List.replicate 30 (some (1 : ℚ)), 1⟩ 12 26 0 .last (2/13)
        none).minperiod = 12
    ∧ (ewm_mean_exp ⟨List.replicate 30 (some (1 : ℚ)), 1⟩ 12 26 0 .last (2/13)
        none).series.getD 11 none = none
    ∧ (ewm_mean_exp ⟨List.replicate 30 (some (1 : ℚ)), 1⟩ 12 26 0 .last (2/13)
        none).series.getD 24 none = none
    ∧ (ewm_mean_exp ⟨List.replicate 30 (some (1 : ℚ)), 1⟩ 12 26 0 .last (2/13)
        none).series.getD 25 none = some 1
    ∧ (1 : ℕ) - 1 + 26 - 0 = 26
    ∧ (12 : ℕ) ≠ 26 :=
  ⟨rfl, by decide, by decide, by decide, by decide, by decide⟩

/-- C2 (amended): the result minperiod of an `_ewm` is
`minperiod_in + pval - 1 - pearly` — independent of `poffset` — which equals
`seed_end` exactly when `poffset = 0`; and every output position before
index `seed_end - 1` is undefined (that part of the claim holds for every
`poffset`). -/
theorem ewm_minperiod_formula (l : Line) (pval poffset pearly se : ℕ)
    (mode : SeedMode) (alpha : ℚ) (beta : Option ℚ)
    (hse : l.minperiod + effective_offset pval poffset = se + 1 + pearly)
    (hp : 1 ≤ pval) (h1 : 1 ≤ se) (hn : se ≤ l.series.length)
    (hmp : 1 + pearly ≤ l.minperiod + pval - 1) :
    (ewm_mean_exp l pval poffset pearly mode alpha beta).minperiod =
      l.minperiod + pval - 1 - pearly
    ∧ (poffset = 0 →
        (ewm_mean_exp l pval poffset pearly mode alpha beta).minperiod = se)
    ∧ ∀ i, i < se - 1 →
        (ewm_mean_exp l pval poffset pearly mode alpha beta).series.getD i
          none = none := by
  have hmper : (ewm_mean_exp l pval poffset pearly mode alpha beta).minperiod =
      l.minperiod + pval - 1 - pearly := by
    show ewm_minperiod l.minperiod pval pearly 1 = _
    simp only [ewm_minperiod]
    omega
  refine ⟨hmper, ?_, ?_⟩
  · intro h0
    rw [hmper]
    rw [h0] at hse
    rw [show effective_offset pval 0 = pval from by simp [effective_offset]]
      at hse
    omega
  · intro i hi
    have hadj : l.minperiod + adj_offset pval poffset 1 = se + 1 + pearly := by
      rw [adj_offset_one pval poffset hp]
      exact hse
    have hr := ewmInit_eq l.series l.minperiod pval poffset pearly 1 se mode
      hadj h1 hn
    show (callOp l.series.length
        (ewmInit l.series l.minperiod pval poffset pearly 1 mode).1
        (sm_acc alpha (betaEff alpha beta)
          (ewmInit l.series l.minperiod pval poffset pearly 1 mode).2)).getD i
        none = none
    rw [hr]
    rcases lt_or_ge i l.series.length with hin | hin
    · exact callOp_getD_lt_start _ _ _ i hin (by omega) (by omega)
    · exact getD_len_le (by rw [callOp_length]; omega)

/-- C2 witness for the amended statement: the standard `poffset = 0` case,
period 3 over `[1..5]`. -/
theorem ewm_minperiod_formula_w :
    ((1 : ℕ) + effective_offset 3 0 = 3 + 1 + 0 ∧ (1 : ℕ) ≤ 3 ∧ (1 : ℕ) ≤ 3
      ∧ (3 : ℕ) ≤ ([some 1, some 2, some 3, some 4, some 5] : Series).length
      ∧ (1 : ℕ) + 0 ≤ 1 + 3 - 1)
    ∧ ((ewm_mean_exp ⟨[some 1, some 2, some 3, some 4, some 5], 1⟩ 3 0 0 .avg
          (1/2) none).minperiod = 1 + 3 - 1 - 0
      ∧ ((0 : ℕ) = 0 →
          (ewm_mean_exp ⟨[some 1, some 2, some 3, some 4, some 5], 1⟩ 3 0 0
            .avg (1/2) none).minperiod = 3)
      ∧ ∀ i, i < 3 - 1 →
          (ewm_mean_exp ⟨[some 1, some 2, some 3, some 4, some 5], 1⟩ 3 0 0
            .avg (1/2) none).series.getD i none = none) :=
  ⟨⟨by decide, by decide, by decide, by decide, by decide⟩,
   ewm_minperiod_formula ⟨[some 1, some 2, some 3, some 4, some 5], 1⟩ 3 0 0 3
     .avg (1/2) none (by decide) (by decide) (by decide) (by decide)
     (by decide)⟩

/-- C3 counterexample: `_mean_exp` tests `if not beta`, so a supplied beta
of 0 is replaced by `1 - alpha` instead of being honored.  With raw input
`[1..5]`, period 3, mean seed 2 at index 2, `alpha = 1/2` and a supplied
`beta = 0`, the claim predicts `result[3] = 0 * 2 + (1/2) * 4 = 2`, but the
code computes `result[3] = (1/2) * 2 + (1/2) * 4 = 3`. -/
theorem ewm_beta_zero_cex :
    (ewm_mean_exp ⟨[some 1, some 2, some 3, some 4, some 5], 1⟩ 3 0 0 .avg
        (1/2) (some 0)).series.getD 2 none = some 2
    ∧ (ewm_mean_exp ⟨[some 1, some 2, some 3, some 4, some 5], 1⟩ 3 0 0 .avg
        (1/2) (some 0)).series.getD 3 none = some 3
    ∧ ((0 : ℚ) * 2 + (1/2) * 4 = 2)
    ∧ ((3 : ℚ) ≠ 2) := by
  have hr := ewmInit_eq [some 1, some 2, some 3, some 4, some 5] 1 3 0 0 1 3
    .avg (by decide) (by decide) (by decide)
  have hx : ewmInit [some 1, some 2, some 3, some 4, some 5] 1 3 0 0 1 .avg =
      (2, [some 2, some 4, some 5]) := by
    rw [hr, seed_value_avg [some 1, some 2, some 3, some 4, some 5] 3 3
      (by decide) (by decide) (by decide) (by decide)]
    norm_num [List.filterMap_cons, Prod.ext_iff]
  have hser : (ewm_mean_exp ⟨[some 1, some 2, some 3, some 4, some 5], 1⟩ 3 0 0
      .avg (1/2) (some 0)).series = callOp 5 2 [some 2, some 3, some 4] := by
    show callOp 5
        (ewmInit [some 1, some 2, some 3, some 4, some 5] 1 3 0 0 1 .avg).1
        (sm_acc (1/2) (betaEff (1/2) (some 0))
          (ewmInit [some 1, some 2, some 3, some 4, some 5] 1 3 0 0 1 .avg).2)
        = callOp 5 2 [some 2, some 3, some 4]
    rw [hx]
    norm_num [sm_acc, smAccGo, smStep, opt2, betaEff]
  rw [hser]
  refine ⟨?_, ?_, by norm_num, by norm_num⟩
  · rw [callOp_getD 5 _ _ 2 (by decide) (by decide) (by decide)]
    rfl
  · rw [callOp_getD 5 _ _ 3 (by decide) (by decide) (by decide)]
    rfl

/-- C3 (amended): from index `seed_end` on, the constant-alpha result obeys
`result[i] = beta * result[i-1] + alpha * raw[i]` with `beta = 1 - alpha`
unless a NONZERO beta is supplied (Python `if not beta` treats a supplied 0
like None, captured by `betaEff`).  The dynamic-alpha path carries its
`prev` internally: at `seed_end` itself the step consumes the seed (the
output at `seed_end - 1` is left undefined) with the alpha sequence's first
valid entry, and from `seed_end + 1` on it obeys
`result[i] = prev + alpha_k * (raw[i] - prev)` with `prev = result[i-1]`
and `alpha_k` indexed in lock-step with `raw` from the alpha line's first
valid position; each dynamic step equals `(1 - alpha_k) * prev + alpha_k *
raw[i]`. -/
theorem ewm_recursion_relation (l : Line) (pval poffset pearly se sed : ℕ)
    (mode : SeedMode) (alpha : ℚ) (beta : Option ℚ) (alphaL : Line)
    (hp : 1 ≤ pval)
    (hse : l.minperiod + effective_offset pval poffset = se + 1 + pearly)
    (h1 : 1 ≤ se) (hn : se ≤ l.series.length)
    (hsed : l.minperiod + adj_offset pval poffset alphaL.minperiod =
      sed + 1 + pearly)
    (hd1 : 1 ≤ sed) (hdn : sed ≤ l.series.length) :
    (∀ i, se ≤ i → i < l.series.length →
      (ewm_mean_exp l pval poffset pearly mode alpha beta).series.getD i none =
        smStep alpha (betaEff alpha beta)
          ((ewm_mean_exp l pval poffset pearly mode alpha beta).series.getD
            (i - 1) none)
          (l.series.getD i none))
    ∧ (sed < l.series.length →
        0 < (alphaL.series.drop (alphaL.minperiod - 1)).length →
        (ewm_mean l pval poffset pearly mode alphaL).series.getD sed none =
          dynStep
            (seed_value l.series mode ((sed : ℤ) - pval) (sed : ℤ)
              ((sed : ℤ) - 1))
            ((alphaL.series.drop (alphaL.minperiod - 1)).getD 0 none)
            (l.series.getD sed none))
    ∧ (∀ i, sed < i → i < l.series.length →
        i - sed < (alphaL.series.drop (alphaL.minperiod - 1)).length →
        (ewm_mean l pval poffset pearly mode alphaL).series.getD i none =
          dynStep
            ((ewm_mean l pval poffset pearly mode alphaL).series.getD (i - 1)
              none)
            ((alphaL.series.drop (alphaL.minperiod - 1)).getD (i - sed) none)
            (l.series.getD i none))
    ∧ (∀ p a x : ℚ, dynStep (some p) (some a) (some x) =
        some ((1 - a) * p + a * x))
    ∧ (∀ p x : ℚ, smStep alpha (betaEff alpha beta) (some p) (some x) =
        some (betaEff alpha beta * p + alpha * x)) := by
  have hadj : l.minperiod + adj_offset pval poffset 1 = se + 1 + pearly := by
    rw [adj_offset_one pval poffset hp]
    exact hse
  refine ⟨fun i hi hin => ewm_mean_exp_rec l pval poffset pearly se mode alpha
      beta hadj h1 hn i hi hin,
    (ewm_mean_rec l pval poffset pearly sed mode alphaL hsed hd1 hdn).1,
    (ewm_mean_rec l pval poffset pearly sed mode alphaL hsed hd1 hdn).2,
    fun p a x => ?_, fun p x => rfl⟩
  simp only [dynStep, Option.some.injEq]
  ring

/-- C3 witness: the recursions instantiated over `[1..5]`, period 3, mean
seeding, `alpha = 1/2`, default beta, and a dynamic alpha line of minperiod
1 holding `[1/2, 1/2]`. -/
theorem ewm_recursion_relation_w :
    ((1 : ℕ) ≤ 3
      ∧ (1 : ℕ) + effective_offset 3 0 = 3 + 1 + 0
      ∧ (1 : ℕ) ≤ 3
      ∧ (3 : ℕ) ≤ ([some 1, some 2, some 3, some 4, some 5] : Series).length
      ∧ (1 : ℕ) + adj_offset 3 0 1 = 3 + 1 + 0
      ∧ (1 : ℕ) ≤ 3
      ∧ (3 : ℕ) ≤ ([some 1, some 2, some 3, some 4, some 5] : Series).length)
    ∧ ((∀ i, 3 ≤ i → i < ([some 1, some 2, some 3, some 4, some 5] :
          Series).length →
        (ewm_mean_exp ⟨[some 1, some 2, some 3, some 4, some 5], 1⟩ 3 0 0 .avg
          (1/2) none).series.getD i none =
          smStep (1/2) (betaEff (1/2) none)
            ((ewm_mean_exp ⟨[some 1, some 2, some 3, some 4, some 5], 1⟩ 3 0 0
              .avg (1/2) none).series.getD (i - 1) none)
            (([some 1, some 2, some 3, some 4, some 5] : Series).getD i none))
      ∧ ((3 : ℕ) < ([some 1, some 2, some 3, some 4, some 5] : Series).length →
          0 < ((⟨[some (1/2), some (1/2)], 1⟩ : Line).series.drop
            ((⟨[some (1/2), some (1/2)], 1⟩ : Line).minperiod - 1)).length →
          (ewm_mean ⟨[some 1, some 2, some 3, some 4, some 5], 1⟩ 3 0 0 .avg
            ⟨[some (1/2), some (1/2)], 1⟩).series.getD 3 none =
            dynStep
              (seed_value [some 1, some 2, some 3, some 4, some 5] .avg
                ((3 : ℤ) - 3) (3 : ℤ) ((3 : ℤ) - 1))
              (((⟨[some (1/2), some (1/2)], 1⟩ : Line).series.drop
                ((⟨[some (1/2), some (1/2)], 1⟩ : Line).minperiod - 1)).getD 0
                none)
              (([some 1, some 2, some 3, some 4, some 5] : Series).getD 3 none))
      ∧ (∀ i, 3 < i → i < ([some 1, some 2, some 3, some 4, some 5] :
            Series).length →
          i - 3 < ((⟨[some (1/2), some (1/2)], 1⟩ : Line).series.drop
            ((⟨[some (1/2), some (1/2)], 1⟩ : Line).minperiod - 1)).length →
          (ewm_mean ⟨[some 1, some 2, some 3, some 4, some 5], 1⟩ 3 0 0 .avg
            ⟨[some (1/2), some (1/2)], 1⟩).series.getD i none =
            dynStep
              ((ewm_mean ⟨[some 1, some 2, some 3, some 4, some 5], 1⟩ 3 0 0
                .avg ⟨[some (1/2), some (1/2)], 1⟩).series.getD (i - 1) none)
              (((⟨[some (1/2), some (1/2)], 1⟩ : Line).series.drop
                ((⟨[some (1/2), some (1/2)], 1⟩ : Line).minperiod - 1)).getD
                (i - 3) none)
              (([some 1, some 2, some 3, some 4, some 5] : Series).getD i none))
      ∧ (∀ p a x : ℚ, dynStep (some p) (some a) (some x) =
          some ((1 - a) * p + a * x))
      ∧ (∀ p x : ℚ, smStep (1/2) (betaEff (1/2) none) (some p) (some x) =
          some (betaEff (1/2) none * p + (1/2) * x))) :=
  ⟨⟨by decide, by decide, by decide, by decide, by decide, by decide,
    by decide⟩,
   ewm_recursion_relation ⟨[some 1, some 2, some 3, some 4, some 5], 1⟩ 3 0 0
     3 3 .avg (1/2) none ⟨[some (1/2), some (1/2)], 1⟩ (by decide) (by decide)
     (by decide) (by decide) (by decide) (by decide) (by decide)⟩

/-- C6 counterexample: with raw `[1..5]`, period 3, mean seed 2 at index 2,
and a constant dynamic alpha line `[1/2, 1/2]` of minperiod 1 equal to the
scalar alpha `1/2`, the dynamic path (`_mean`/`_dynalpha`) erases the seed
slot (`vals[0] = np.nan`) while the constant path (`_mean_exp`) keeps it:
the two results differ at index `seed_end - 1 = 2`. -/
theorem dynalpha_const_cex :
    (ewm_mean ⟨[some 1, some 2, some 3, some 4, some 5], 1⟩ 3 0 0 .avg
        ⟨[some (1/2), some (1/2)], 1⟩).series.getD 2 none = none
    ∧ (ewm_mean_exp ⟨[some 1, some 2, some 3, some 4, some 5], 1⟩ 3 0 0 .avg
        (1/2) none).series.getD 2 none = some 2
    ∧ ((none : Option ℚ) ≠ some 2) := by
  have hr := ewmInit_eq [some 1, some 2, some 3, some 4, some 5] 1 3 0 0 1 3
    .avg (by decide) (by decide) (by decide)
  have hx : ewmInit [some 1, some 2, some 3, some 4, some 5] 1 3 0 0 1 .avg =
      (2, [some 2, some 4, some 5]) := by
    rw [hr, seed_value_avg [some 1, some 2, some 3, some 4, some 5] 3 3
      (by decide) (by decide) (by decide) (by decide)]
    norm_num [List.filterMap_cons, Prod.ext_iff]
  have hserd : (ewm_mean ⟨[some 1, some 2, some 3, some 4, some 5], 1⟩ 3 0 0
      .avg ⟨[some (1/2), some (1/2)], 1⟩).series =
      callOp 5 2 [none, some 3, some 4] := by
    show callOp 5
        (ewmInit [some 1, some 2, some 3, some 4, some 5] 1 3 0 0 1 .avg).1
        (dynalpha [some (1/2), some (1/2)]
          (ewmInit [some 1, some 2, some 3, some 4, some 5] 1 3 0 0 1 .avg).2)
        = callOp 5 2 [none, some 3, some 4]
    rw [hx]
    norm_num [dynalpha, dynGo, dynStep]
  have hsere : (ewm_mean_exp ⟨[some 1, some 2, some 3, some 4, some 5], 1⟩ 3 0
      0 .avg (1/2) none).series = callOp 5 2 [some 2, some 3, some 4] := by
    show callOp 5
        (ewmInit [some 1, some 2, some 3, some 4, some 5] 1 3 0 0 1 .avg).1
        (sm_acc (1/2) (betaEff (1/2) none)
          (ewmInit [some 1, some 2, some 3, some 4, some 5] 1 3 0 0 1 .avg).2)
        = callOp 5 2 [some 2, some 3, some 4]
    rw [hx]
    norm_num [sm_acc, smAccGo, smStep, opt2, betaEff]
  refine ⟨?_, ?_, by decide⟩
  · rw [hserd, callOp_getD 5 _ _ 2 (by decide) (by decide) (by decide)]
    rfl
  · rw [hsere, callOp_getD 5 _ _ 2 (by decide) (by decide) (by decide)]
    rfl

/-- C6 (amended): for a dynamic alpha line of minperiod 1, constant at the
scalar `alpha`, whose length exactly covers the smoothing range
(`len - seed_end` entries), the dynamic-alpha path agrees with the
constant-alpha path at every index EXCEPT `seed_end - 1`, where the dynamic
path leaves the output undefined while the constant path carries the seed;
the two results also report the same minperiod. -/
theorem dynalpha_const_equiv (s : Series) (m pval : ℕ) (mode : SeedMode)
    (alpha : ℚ) (hm : 1 ≤ m) (hp : 1 ≤ pval) (hn : m + pval - 1 ≤ s.length) :
    (∀ i, i ≠ m + pval - 2 →
      (ewm_mean ⟨s, m⟩ pval 0 0 mode
        ⟨List.replicate (s.length - (m + pval - 1)) (some alpha),
          1⟩).series.getD i none
      = (ewm_mean_exp ⟨s, m⟩ pval 0 0 mode alpha none).series.getD i none)
    ∧ (ewm_mean ⟨s, m⟩ pval 0 0 mode
        ⟨List.replicate (s.length - (m + pval - 1)) (some alpha),
          1⟩).minperiod
      = (ewm_mean_exp ⟨s, m⟩ pval 0 0 mode alpha none).minperiod := by
  have hadj : m + adj_offset pval 0 1 = (m + pval - 1) + 1 + 0 := by
    rw [adj_offset_one pval 0 hp,
      show effective_offset pval 0 = pval from by simp [effective_offset]]
    omega
  have hr := ewmInit_eq s m pval 0 0 1 (m + pval - 1) mode hadj (by omega) hn
  have hserd : (ewm_mean ⟨s, m⟩ pval 0 0 mode
      ⟨List.replicate (s.length - (m + pval - 1)) (some alpha), 1⟩).series =
      callOp s.length ((↑(m + pval - 1) : ℤ) - 1)
        (none :: dynGo
          (seed_value s mode ((↑(m + pval - 1) : ℤ) - ↑pval) (↑(m + pval - 1))
            ((↑(m + pval - 1) : ℤ) - 1))
          (List.replicate (s.length - (m + pval - 1)) (some alpha))
          (s.drop (m + pval - 1))) := by
    show callOp s.length (ewmInit s m pval 0 0 1 mode).1
        (dynalpha (List.replicate (s.length - (m + pval - 1)) (some alpha))
          (ewmInit s m pval 0 0 1 mode).2) = _
    rw [hr]
    rfl
  have hsere : (ewm_mean_exp ⟨s, m⟩ pval 0 0 mode alpha none).series =
      callOp s.length ((↑(m + pval - 1) : ℤ) - 1)
        ((seed_value s mode ((↑(m + pval - 1) : ℤ) - ↑pval) (↑(m + pval - 1))
            ((↑(m + pval - 1) : ℤ) - 1))
          :: smAccGo alpha (1 - alpha)
            (seed_value s mode ((↑(m + pval - 1) : ℤ) - ↑pval)
              (↑(m + pval - 1)) ((↑(m + pval - 1) : ℤ) - 1))
            (s.drop (m + pval - 1))) := by
    show callOp s.length (ewmInit s m pval 0 0 1 mode).1
        (sm_acc alpha (betaEff alpha none)
          (ewmInit s m pval 0 0 1 mode).2) = _
    rw [hr]
    rfl
  have hgo : dynGo
      (seed_value s mode ((↑(m + pval - 1) : ℤ) - ↑pval) (↑(m + pval - 1))
        ((↑(m + pval - 1) : ℤ) - 1))
      (List.replicate (s.length - (m + pval - 1)) (some alpha))
      (s.drop (m + pval - 1)) =
      smAccGo alpha (1 - alpha)
        (seed_value s mode ((↑(m + pval - 1) : ℤ) - ↑pval) (↑(m + pval - 1))
          ((↑(m + pval - 1) : ℤ) - 1))
        (s.drop (m + pval - 1)) := by
    rw [show s.length - (m + pval - 1) = (s.drop (m + pval - 1)).length from
      by rw [List.length_drop]]
    exact dynGo_replicate alpha _ _
  constructor
  · intro i hne
    rcases lt_or_ge i s.length with hin | hin
    · have ht : ((↑(m + pval - 1) : ℤ) - 1).toNat = m + pval - 2 := by omega
      rcases lt_or_ge i (m + pval - 2) with hlt | hge
      · rw [hserd, hsere,
          callOp_getD_lt_start _ _ _ i hin (by omega) (by omega),
          callOp_getD_lt_start _ _ _ i hin (by omega) (by omega)]
      · rw [hserd, hsere, callOp_getD _ _ _ i hin (by omega) (by omega),
          callOp_getD _ _ _ i hin (by omega) (by omega), ht,
          if_neg (by omega), if_neg (by omega), hgo,
          show i - (m + pval - 2) = (i - (m + pval - 1)) + 1 from by omega,
          List.getD_cons_succ, List.getD_cons_succ]
    · rw [hserd, hsere, getD_len_le (by rw [callOp_length]; omega),
        getD_len_le (by rw [callOp_length]; omega)]
  · rfl

/-- C6 witness for the amended statement: `[1..5]`, period 3, mean seeding,
alpha `1/2`, dynamic alpha line `replicate 2 (1/2)`. -/
theorem dynalpha_const_equiv_w :
    ((1 : ℕ) ≤ 1 ∧ (1 : ℕ) ≤ 3
      ∧ (1 : ℕ) + 3 - 1 ≤ ([some 1, some 2, some 3, some 4, some 5] :
          Series).length)
    ∧ ((∀ i, i ≠ 1 + 3 - 2 →
        (ewm_mean ⟨[some 1, some 2, some 3, some 4, some 5], 1⟩ 3 0 0 .avg
          ⟨List.replicate (([some 1, some 2, some 3, some 4, some 5] :
            Series).length - (1 + 3 - 1)) (some (1/2)), 1⟩).series.getD i none
        = (ewm_mean_exp ⟨[some 1, some 2, some 3, some 4, some 5], 1⟩ 3 0 0
          .avg (1/2) none).series.getD i none)
      ∧ (ewm_mean ⟨[some 1, some 2, some 3, some 4, some 5], 1⟩ 3 0 0 .avg
          ⟨List.replicate (([some 1, some 2, some 3, some 4, some 5] :
            Series).length - (1 + 3 - 1)) (some (1/2)), 1⟩).minperiod
        = (ewm_mean_exp ⟨[some 1, some 2, some 3, some 4, some 5], 1⟩ 3 0 0
          .avg (1/2) none).minperiod) :=
  ⟨⟨by decide, by decide, by decide⟩,
   dynalpha_const_equiv [some 1, some 2, some 3, some 4, some 5] 1 3 .avg
     (1/2) (by decide) (by decide) (by decide)⟩

/-- C8: exponential smoothing with mean seeding over a constant input `c`
(minperiod 1, period `pval`, enough samples to seed) yields `c` at the seed
index `pval - 1` and at every later index: `c` is a fixed point of the
recursion. -/
theorem ewm_const_fixed_point (n pval : ℕ) (c alpha : ℚ) (hp : 1 ≤ pval)
    (hn : pval ≤ n) :
    ∀ i, pval - 1 ≤ i → i < n →
      (ewm_mean_exp ⟨List.replicate n (some c), 1⟩ pval 0 0 .avg alpha
        none).series.getD i none = some c := by
  intro i hil hin
  have hlen : (List.replicate n (some c) : Series).length = n := by simp
  have hadj : 1 + adj_offset pval 0 1 = pval + 1 + 0 := by
    rw [adj_offset_one pval 0 hp,
      show effective_offset pval 0 = pval from by simp [effective_offset]]
    omega
  have hr := ewmInit_eq (List.replicate n (some c)) 1 pval 0 0 1 pval .avg hadj
    hp (by simpa using hn)
  have hseed : seed_value (List.replicate n (some c)) .avg
      ((pval : ℤ) - pval) (pval : ℤ) ((pval : ℤ) - 1) = some c := by
    rw [seed_value_avg (List.replicate n (some c)) pval pval hp le_rfl
      (by simpa using hn)
      (by
        rw [Nat.sub_self, List.drop_zero, List.take_replicate,
          Nat.min_eq_left hn]
        intro x hx
        rw [List.eq_of_mem_replicate hx]
        rfl)]
    rw [Nat.sub_self, List.drop_zero, List.take_replicate,
      Nat.min_eq_left hn, filterMap_id_replicate, List.sum_replicate,
      nsmul_eq_mul]
    rw [mul_div_cancel_left₀ c (show ((pval : ℕ) : ℚ) ≠ 0 by positivity)]
  rw [hseed] at hr
  have hdrop : (List.replicate n (some c) : Series).drop pval =
      List.replicate (n - pval) (some c) := List.drop_replicate ..
  rw [hdrop] at hr
  have hsm : sm_acc alpha (betaEff alpha none)
      (some c :: List.replicate (n - pval) (some c)) =
      some c :: List.replicate (n - pval) (some c) := by
    show some c :: smAccGo alpha (1 - alpha) (some c)
        (List.replicate (n - pval) (some c)) = _
    rw [smAccGo_const]
  have hser : (ewm_mean_exp ⟨List.replicate n (some c), 1⟩ pval 0 0 .avg alpha
      none).series =
      callOp n ((pval : ℤ) - 1)
        (some c :: List.replicate (n - pval) (some c)) := by
    show callOp (List.replicate n (some c) : Series).length
        (ewmInit (List.replicate n (some c)) 1 pval 0 0 1 .avg).1
        (sm_acc alpha (betaEff alpha none)
          (ewmInit (List.replicate n (some c)) 1 pval 0 0 1 .avg).2) = _
    rw [hr, hlen, hsm]
  rw [hser, callOp_getD n _ _ i hin (by omega) (by omega)]
  rw [if_neg (by omega)]
  rcases Nat.eq_zero_or_pos (i - (((pval : ℤ) - 1).toNat)) with hz | hpos
  · rw [hz]
    rfl
  · rw [show i - (((pval : ℤ) - 1).toNat) =
      (i - (((pval : ℤ) - 1).toNat) - 1) + 1 from by omega,
      List.getD_cons_succ]
    exact getD_replicate_lt _ _ _ (by omega)

/-- C8 witness: constant input 7, period 2, four samples. -/
theorem ewm_const_fixed_point_w :
    ((1 : ℕ) ≤ 2 ∧ (2 : ℕ) ≤ 4)
    ∧ ∀ i, 2 - 1 ≤ i → i < 4 →
        (ewm_mean_exp ⟨List.replicate 4 (some (7 : ℚ)), 1⟩ 2 0 0 .avg (1/3)
          none).series.getD i none = some 7 :=
  ⟨⟨by decide, by decide⟩, ewm_const_fixed_point 4 2 7 (1/3) (by decide)
    (by decide)⟩

/-- C10 witness: storing a raw sequence and retrieving it at a concrete
position. -/
theorem lines_member_is_line_w :
    (0 : ℕ) < ([⟨[some 1], 4⟩] : List Line).length
    ∧ ((lines_setitem [⟨[some 1], 4⟩] 0 (.raw [some 2]))[0]? =
        some (line_call (.raw [some 2]))
      ∧ (∀ sq : Series, line_call (.raw sq) = ⟨sq, 1⟩)
      ∧ (∀ l0 : Line, line_call (.line l0) = ⟨l0.series, l0.minperiod⟩)) :=
  ⟨by decide, lines_member_is_line [⟨[some 1], 4⟩] 0 (.raw [some 2]) (by decide)⟩

end Bta
